import Mathlib

/-!
Verification of the `bitmaps` crate: a fixed-capacity bit-array value type
`Bitmap<Size>` (src/bitmap.rs) over a storage representation selected from
the declared bit-count by the `Bits` trait.  A storage value is modelled as
a natural number below `2 ^ storeWidth n`: bit `i` of the stored machine
value (for array representations, bit `i % 128` of word `i / 128`) is
`Nat.testBit d i`.  The crate's `types` module (the `Bits` trait
implementations) is not among the sources; its four primitives are
modelled from the spec, as noted on each definition.  Everything in
src/bitmap.rs itself (the wrappers, `from_value`/`into_value`, equality,
and the iterator) is translated directly.
-/

namespace Bitmaps

/-- Width in bits of the storage representation the crate selects for a
declared size `n`: `bool` for 1 bit, the smallest sufficient unsigned
integer type for sizes up to 128, and an array of 128-bit words (length
`ceil(n / 128)`) above that. -/
def storeWidth (n : Nat) : Nat :=
  if n ≤ 1 then 1
  else if n ≤ 8 then 8
  else if n ≤ 16 then 16
  else if n ≤ 32 then 32
  else if n ≤ 64 then 64
  else if n ≤ 128 then 128
  else 128 * ((n + 127) / 128)

namespace Store

/-- Modelled from the spec: the bit-write helper underlying `Bits::set` of
the missing `types` module — "sets or clears exactly one bit, leaves all
others unchanged".  Setting is `d ||| 2 ^ i`; clearing is
`d ^^^ (d &&& 2 ^ i)`, which removes bit `i` when present and is the
identity otherwise. -/
def setBit (d i : Nat) (v : Bool) : Nat :=
  if v then d ||| 2 ^ i else d ^^^ (d &&& 2 ^ i)

/-- Modelled from the spec: the `Bits::get` primitive of the missing
`types` module.  Precondition `index < n` (the declared size); an
out-of-range index is an immediate unrecoverable abort, modelled as
`none`. -/
def get (n d i : Nat) : Option Bool :=
  if i < n then some (d.testBit i) else none

/-- Modelled from the spec: the `Bits::set` primitive of the missing
`types` module.  Same bounds precondition as `get`; returns the updated
storage value together with the previous value of the addressed bit. -/
def set (n d i : Nat) (v : Bool) : Option (Nat × Bool) :=
  if i < n then some (setBit d i v, d.testBit i) else none

/-- Modelled from the spec: the `Bits::len` primitive — the population
count of the stored value (for arrays, the sum of per-word popcounts),
i.e. the number of set bits among the `w` bits of the representation. -/
def len (w d : Nat) : Nat :=
  (List.range w).countP (fun i => d.testBit i)

/-- Modelled from the spec: the `Bits::first_index` primitive — the lowest
index whose bit is true, scanning the representation in increasing index
order, or `none` if the storage is all-false. -/
def firstIndex (w d : Nat) : Option Nat :=
  (List.range w).find? (fun i => d.testBit i)

end Store

/-- The bitmap value type (src/bitmap.rs line 18): wraps exactly one
storage value of the representation selected for `n`. -/
structure Bitmap (n : Nat) where
  data : Nat
  deriving DecidableEq

/-- Rust `Bitmap::new` = `Self::default()`; `Size::Store::default()` is
the all-zero value of every representation (`false`, `0`, zero array). -/
def Bitmap.new (n : Nat) : Bitmap n := ⟨0⟩

/-- Rust `Bitmap::from_value`: wraps a caller-supplied storage value
verbatim, with no masking of bits at positions at or above `n`. -/
def Bitmap.from_value {n : Nat} (d : Nat) : Bitmap n := ⟨d⟩

/-- Rust `Bitmap::into_value`: unwraps to the raw storage value. -/
def Bitmap.into_value {n : Nat} (b : Bitmap n) : Nat := b.data

/-- Rust `Bitmap::len`: delegates to `Size::len` on the stored value. -/
def Bitmap.len {n : Nat} (b : Bitmap n) : Nat := Store.len (storeWidth n) b.data

/-- Rust `Bitmap::get`: delegates to `Size::get` on the stored value. -/
def Bitmap.get {n : Nat} (b : Bitmap n) (i : Nat) : Option Bool := Store.get n b.data i

/-- Rust `Bitmap::set`: delegates to `Size::set`; the Rust `&mut self`
mutation is modelled by returning the updated bitmap alongside the
returned previous bit value. -/
def Bitmap.set {n : Nat} (b : Bitmap n) (i : Nat) (v : Bool) : Option (Bitmap n × Bool) :=
  (Store.set n b.data i v).map (fun p => (⟨p.1⟩, p.2))

/-- Rust `Bitmap::first_index`: delegates to `Size::first_index`. -/
def Bitmap.first_index {n : Nat} (b : Bitmap n) : Option Nat :=
  Store.firstIndex (storeWidth n) b.data

/-- Rust `Bitmap::is_empty` (src/bitmap.rs line 77):
`self.first_index().is_none()`. -/
def Bitmap.is_empty {n : Nat} (b : Bitmap n) : Bool := b.first_index.isNone

/-- The iterator over true-bit indices (src/bitmap.rs line 219): a scan
position and a copy of the bitmap's storage. -/
structure Iter (n : Nat) where
  index : Nat
  data : Nat
  deriving DecidableEq

/-- Rust `IntoIterator for Bitmap` (src/bitmap.rs line 106): an iterator
starting at index 0 over a copy of the storage. -/
def Bitmap.into_iter {n : Nat} (b : Bitmap n) : Iter n := ⟨0, b.data⟩

/-- Recursion core of Rust `Iter::next` (src/bitmap.rs lines 227-238).
The Rust code recurses with `self.index + 1` until the index reaches the
declared size `n`; the fuel argument is exactly `n - index`, which makes
that recursion structural while preserving the step-for-step behaviour:
with fuel 0 the index is at or past `n` and the call returns `None`
leaving the state as it stands; otherwise the bit at the current index is
tested, yielded if true, and skipped otherwise. -/
def Iter.nextAux (n d : Nat) : Nat → Nat → Option Nat × Iter n
  | 0, j => (none, ⟨j, d⟩)
  | f + 1, j => if d.testBit j then (some j, ⟨j + 1, d⟩) else Iter.nextAux n d f (j + 1)

/-- Rust `Iter::next`: returns the yielded item (or `None` when
exhausted) together with the mutated iterator state. -/
def Iter.next {n : Nat} (s : Iter n) : Option Nat × Iter n :=
  Iter.nextAux n s.data (n - s.index) s.index

/-- Repeatedly call `Iter.next`, collecting the yielded indices, for at
most `fuel` yields. -/
def Iter.collect {n : Nat} : Nat → Iter n → List Nat
  | 0, _ => []
  | f + 1, s =>
    match Iter.next s with
    | (none, _) => []
    | (some i, s') => i :: Iter.collect f s'

/-- The full sequence of indices the iterator yields before exhaustion.
Every yield advances the scan position by at least one, so `n - index`
yields can never be exceeded and this fuel is sufficient
(`Iter.collect_eq` below proves the result independent of any larger
fuel). -/
def Iter.toList {n : Nat} (s : Iter n) : List Nat := Iter.collect (n - s.index) s

/-- Calling `set(i, true)` successively for each index in the list, as the
crate's own property tests do; an out-of-bounds index (which in Rust would
abort) leaves the bitmap unchanged here and is excluded by hypothesis in
every theorem below. -/
def Bitmap.setAllTrue {n : Nat} (b : Bitmap n) : List Nat → Bitmap n
  | [] => b
  | i :: t =>
    Bitmap.setAllTrue
      (match b.set i true with
       | some p => p.1
       | none => b) t

/-- A fresh bitmap with exactly the indices of `l` set true. -/
def buildBitmap (n : Nat) (l : List Nat) : Bitmap n := (Bitmap.new n).setAllTrue l

/-! Basic lemmas about the storage primitives. -/

theorem storeWidth_ge (n : Nat) : n ≤ storeWidth n := by
  unfold storeWidth
  repeat' split
  all_goals omega

theorem Store.testBit_setBit (d i j : Nat) (v : Bool) :
    (Store.setBit d i v).testBit j = if j = i then v else d.testBit j := by
  unfold Store.setBit
  by_cases hj : j = i
  · subst hj
    cases v
    · simp [Nat.testBit_xor, Nat.testBit_and, Nat.testBit_two_pow]
    · simp [Nat.testBit_or, Nat.testBit_two_pow]
  · cases v
    · simp [Nat.testBit_xor, Nat.testBit_and, Nat.testBit_two_pow, Ne.symm hj, hj]
    · simp [Nat.testBit_or, Nat.testBit_two_pow, Ne.symm hj, hj]

theorem Bitmap.data_setAllTrue {n : Nat} (l : List Nat) (hl : ∀ i ∈ l, i < n)
    (b : Bitmap n) (j : Nat) :
    (b.setAllTrue l).data.testBit j = (b.data.testBit j || decide (j ∈ l)) := by
  induction l generalizing b with
  | nil => simp [Bitmap.setAllTrue]
  | cons i t ih =>
    have hi : i < n := hl i (by simp)
    have ht : ∀ x ∈ t, x < n := fun x hx => hl x (by simp [hx])
    have hset : b.set i true = some (⟨Store.setBit b.data i true⟩, b.data.testBit i) := by
      simp [Bitmap.set, Store.set, hi]
    rw [Bitmap.setAllTrue, hset]
    rw [ih ht]
    simp only [Store.testBit_setBit, List.mem_cons]
    by_cases hj : j = i <;> simp [hj]

theorem buildBitmap_testBit (n : Nat) (l : List Nat) (hl : ∀ i ∈ l, i < n) (j : Nat) :
    (buildBitmap n l).data.testBit j = decide (j ∈ l) := by
  rw [buildBitmap, Bitmap.data_setAllTrue l hl]
  simp [Bitmap.new]

/-! Lemmas about the iterator. -/

theorem Iter.nextAux_none (n d : Nat) :
    ∀ (f j : Nat) (s' : Iter n), Iter.nextAux n d f j = (none, s') → s' = ⟨j + f, d⟩ := by
  intro f
  induction f with
  | zero =>
    intro j s' h
    simp only [Iter.nextAux, Prod.mk.injEq] at h
    simp [← h.2]
  | succ f ih =>
    intro j s' h
    by_cases hb : d.testBit j
    · simp [Iter.nextAux, hb] at h
    · simp only [Iter.nextAux, hb, if_false, Bool.false_eq_true] at h
      rw [ih (j + 1) s' h]
      congr 1
      omega

theorem Iter.next_none {n : Nat} (s s' : Iter n) (h : Iter.next s = (none, s')) :
    n ≤ s'.index ∧ s'.data = s.data := by
  have h2 := Iter.nextAux_none n s.data (n - s.index) s.index s' h
  subst h2
  constructor
  · simp; omega
  · rfl

theorem Iter.next_of_exhausted {n : Nat} (s : Iter n) (h : n ≤ s.index) :
    Iter.next s = (none, s) := by
  show Iter.nextAux n s.data (n - s.index) s.index = (none, s)
  rw [show n - s.index = 0 from by omega]
  rfl

theorem Iter.collect_eq (n d : Nat) :
    ∀ (K j f : Nat), n - j ≤ K → n - j ≤ f →
      Iter.collect f (⟨j, d⟩ : Iter n)
        = (List.range' j (n - j)).filter (fun i => d.testBit i) := by
  intro K
  induction K with
  | zero =>
    intro j f hK hf
    have hj : n - j = 0 := by omega
    have hnext : Iter.next (⟨j, d⟩ : Iter n) = (none, ⟨j, d⟩) :=
      Iter.next_of_exhausted _ (by simp; omega)
    cases f with
    | zero => simp [Iter.collect, hj]
    | succ f =>
      rw [hj]
      show (match Iter.next (⟨j, d⟩ : Iter n) with
            | (none, _) => []
            | (some i, s') => i :: Iter.collect f s') = _
      rw [hnext]
      simp
  | succ K ih =>
    intro j f hK hf
    by_cases hjn : n ≤ j
    · have hj : n - j = 0 := by omega
      have hnext : Iter.next (⟨j, d⟩ : Iter n) = (none, ⟨j, d⟩) :=
        Iter.next_of_exhausted _ (by simpa using hjn)
      cases f with
      | zero => simp [Iter.collect, hj]
      | succ f =>
        rw [hj]
        show (match Iter.next (⟨j, d⟩ : Iter n) with
              | (none, _) => []
              | (some i, s') => i :: Iter.collect f s') = _
        rw [hnext]
        simp
    · have hnj : n - j = (n - (j + 1)) + 1 := by omega
      have hnext : Iter.next (⟨j, d⟩ : Iter n)
          = if d.testBit j then (some j, ⟨j + 1, d⟩) else Iter.next (⟨j + 1, d⟩ : Iter n) := by
        show Iter.nextAux n d (n - j) j = _
        rw [hnj]
        rfl
      obtain ⟨f', rfl⟩ : ∃ f', f = f' + 1 := ⟨f - 1, by omega⟩
      by_cases hbit : d.testBit j
      · show (match Iter.next (⟨j, d⟩ : Iter n) with
              | (none, _) => []
              | (some i, s') => i :: Iter.collect f' s') = _
        rw [hnext, if_pos hbit]
        rw [hnj, List.range'_succ]
        simp only [List.filter_cons, hbit]
        rw [ih (j + 1) f' (by omega) (by omega)]
        simp
      · have step : Iter.collect (f' + 1) (⟨j, d⟩ : Iter n)
            = Iter.collect (f' + 1) (⟨j + 1, d⟩ : Iter n) := by
          show (match Iter.next (⟨j, d⟩ : Iter n) with
                | (none, _) => []
                | (some i, s') => i :: Iter.collect f' s')
              = (match Iter.next (⟨j + 1, d⟩ : Iter n) with
                | (none, _) => []
                | (some i, s') => i :: Iter.collect f' s')
          rw [hnext, if_neg hbit]
        rw [step, ih (j + 1) (f' + 1) (by omega) (by omega), hnj, List.range'_succ]
        simp [List.filter_cons, hbit]

theorem Iter.toList_eq (n d : Nat) :
    Iter.toList (⟨0, d⟩ : Iter n) = (List.range n).filter (fun i => d.testBit i) := by
  rw [List.range_eq_range']
  show Iter.collect (n - 0) (⟨0, d⟩ : Iter n) = _
  rw [Nat.sub_zero]
  have := Iter.collect_eq n d n 0 n (by omega) (by omega)
  rw [Nat.sub_zero] at this
  exact this

/-! Claim theorems. -/

/-- C1: starting from a fresh bitmap and calling `set(i, true)` for exactly
the indices in `l`, `get i` afterwards returns true if and only if `i` is
in `l`, for every index `i < n`. -/
theorem C1_get_after_set (n : Nat) (l : List Nat) (hl : ∀ j ∈ l, j < n)
    (i : Nat) (hi : i < n) :
    (buildBitmap n l).get i = some (decide (i ∈ l)) := by
  rw [Bitmap.get, Store.get, if_pos hi, buildBitmap_testBit n l hl]

theorem C1_witness : (buildBitmap 10 [3, 5, 8]).get 5 = some true :=
  (C1_get_after_set 10 [3, 5, 8] (by decide) 5 (by decide)).trans (by decide)

/-- C8: for every bitmap (whatever its stored value, including values
produced by `from_value`), `is_empty` returns true iff `first_index`
returns `none`, and this holds iff `len` returns 0. -/
theorem C8_emptiness_agree (n : Nat) (b : Bitmap n) :
    (b.is_empty = true ↔ b.first_index = none) ∧
    (b.is_empty = true ↔ b.len = 0) := by
  constructor
  · simp [Bitmap.is_empty]
  · simp only [Bitmap.is_empty, Bitmap.first_index, Bitmap.len, Store.firstIndex,
      Store.len, Option.isNone_iff_eq_none, List.find?_eq_none, List.countP_eq_zero]

/-- C9: `new` returns a bitmap in which every bit below the declared size
is false, whose `len` is 0 and whose `is_empty` is true. -/
theorem C9_new_all_false (n i : Nat) (hi : i < n) :
    (Bitmap.new n).get i = some false ∧ (Bitmap.new n).len = 0 ∧
    (Bitmap.new n).is_empty = true := by
  refine ⟨?_, ?_, ?_⟩
  · simp [Bitmap.new, Bitmap.get, Store.get, hi]
  · simp [Bitmap.new, Bitmap.len, Store.len]
  · simp [Bitmap.new, Bitmap.is_empty, Bitmap.first_index, Store.firstIndex]

theorem C9_witness : (Bitmap.new 10).get 3 = some false ∧
    (Bitmap.new 10).len = 0 ∧ (Bitmap.new 10).is_empty = true :=
  C9_new_all_false 10 3 (by decide)

/-- C4: for an in-range index, `set(i, v)` succeeds, returns the value
`get i` held immediately before the call, sets bit `i` to `v`, and leaves
every other in-range bit unchanged. -/
theorem C4_set_frame (n : Nat) (b : Bitmap n) (i : Nat) (v : Bool) (hi : i < n) :
    ∃ p : Bitmap n × Bool, b.set i v = some p ∧
      b.get i = some p.2 ∧
      p.1.get i = some v ∧
      ∀ j, j < n → j ≠ i → p.1.get j = b.get j := by
  refine ⟨(⟨Store.setBit b.data i v⟩, b.data.testBit i), ?_, ?_, ?_, ?_⟩
  · simp [Bitmap.set, Store.set, hi]
  · simp [Bitmap.get, Store.get, hi]
  · simp [Bitmap.get, Store.get, hi, Store.testBit_setBit]
  · intro j hj hne
    simp [Bitmap.get, Store.get, hj, Store.testBit_setBit, hne]

theorem C4_witness :
    ((Bitmap.new 10).set 3 true).map Prod.snd = (Bitmap.new 10).get 3 := by
  obtain ⟨p, h1, h2, h3, h4⟩ := C4_set_frame 10 (Bitmap.new 10) 3 true (by decide)
  rw [h1]
  exact h2.symm

/-- C5: calling `get` or `set` with an index at or above the declared size
fails (an unrecoverable out-of-bounds abort, modelled as `none`) rather
than returning a value. -/
theorem C5_out_of_bounds (n : Nat) (b : Bitmap n) (i : Nat) (v : Bool) (hi : n ≤ i) :
    b.get i = none ∧ b.set i v = none := by
  have h : ¬ i < n := by omega
  constructor
  · simp [Bitmap.get, Store.get, h]
  · simp [Bitmap.set, Store.set, h]

theorem C5_witness : (Bitmap.new 10).get 10 = none ∧
    (Bitmap.new 10).set 10 true = none :=
  C5_out_of_bounds 10 (Bitmap.new 10) 10 true (by decide)

/-- C7: `from_value` and `into_value` are a lossless round trip: wrapping
the unwrapped value of any bitmap reproduces an equal bitmap, and
unwrapping a wrapped raw storage value (any value of the representation
selected for the declared size) reproduces that value. -/
theorem C7_round_trip (n : Nat) (b : Bitmap n) (d : Nat) (_hd : d < 2 ^ storeWidth n) :
    Bitmap.from_value b.into_value = b ∧ (Bitmap.from_value (n := n) d).into_value = d :=
  ⟨rfl, rfl⟩

theorem C7_witness :
    Bitmap.from_value (Bitmap.into_value (Bitmap.from_value (n := 10) 37))
      = Bitmap.from_value (n := 10) 37 ∧
    (Bitmap.from_value (n := 10) 999).into_value = 999 :=
  C7_round_trip 10 (Bitmap.from_value 37) 999 (by decide)

/-- C2: on a bitmap built by setting exactly the indices of `l` true, the
iterator obtained via `into_iter` yields exactly the ascending enumeration
of those indices: the sequence is the filter of `0, ..., n-1` by
membership in `l`, is strictly increasing (hence yields each element
once), and the list is finite, so the iterator then terminates. -/
theorem C2_iter_sorted (n : Nat) (l : List Nat) (hl : ∀ i ∈ l, i < n) :
    (buildBitmap n l).into_iter.toList
        = (List.range n).filter (fun i => decide (i ∈ l)) ∧
    (buildBitmap n l).into_iter.toList.Pairwise (· < ·) ∧
    (∀ i, i ∈ (buildBitmap n l).into_iter.toList ↔ i ∈ l) := by
  have h1 : (buildBitmap n l).into_iter.toList
      = (List.range n).filter (fun i => (buildBitmap n l).data.testBit i) :=
    Iter.toList_eq n (buildBitmap n l).data
  have h2 : (buildBitmap n l).into_iter.toList
      = (List.range n).filter (fun i => decide (i ∈ l)) := by
    rw [h1]
    apply List.filter_congr
    intro x _
    exact buildBitmap_testBit n l hl x
  refine ⟨h2, ?_, ?_⟩
  · rw [h2]
    exact (List.pairwise_lt_range n).sublist (List.filter_sublist _)
  · intro i
    rw [h2]
    simp only [List.mem_filter, List.mem_range, decide_eq_true_eq]
    exact ⟨fun h => h.2, fun h => ⟨hl i h, h⟩⟩

theorem C2_witness : (buildBitmap 10 [3, 5, 8]).into_iter.toList = [3, 5, 8] :=
  ((C2_iter_sorted 10 [3, 5, 8] (by decide)).1).trans (by decide)

/-- C3: on a bitmap built by setting exactly the distinct indices of `l`
(all below the declared size) true, `len` returns the number of those
indices. -/
theorem C3_len_card (n : Nat) (l : List Nat) (hnd : l.Nodup) (hl : ∀ i ∈ l, i < n) :
    (buildBitmap n l).len = l.length := by
  have hw : ∀ i ∈ l, i < storeWidth n :=
    fun i hi => lt_of_lt_of_le (hl i hi) (storeWidth_ge n)
  rw [Bitmap.len, Store.len]
  have h1 : (List.range (storeWidth n)).countP
        (fun i => (buildBitmap n l).data.testBit i)
      = (List.range (storeWidth n)).countP (fun i => decide (i ∈ l)) := by
    apply List.countP_congr
    intro x _
    rw [buildBitmap_testBit n l hl]
  rw [h1, List.countP_eq_length_filter]
  have hperm : List.Perm ((List.range (storeWidth n)).filter (fun i => decide (i ∈ l))) l := by
    apply List.perm_of_nodup_nodup_toFinset_eq
    · exact (List.nodup_range _).filter _
    · exact hnd
    · ext x
      simp only [List.mem_toFinset, List.mem_filter, List.mem_range, decide_eq_true_eq]
      exact ⟨fun h => h.2, fun h => ⟨hw x h, h⟩⟩
  exact hperm.length_eq

theorem C3_witness : (buildBitmap 10 [3, 5, 8]).len = 3 :=
  C3_len_card 10 [3, 5, 8] (by decide) (by decide)

/-- C10: every index the iterator yields is strictly below the declared
size, even for a bitmap constructed by `from_value` from a raw value with
bits set at positions at or above the declared size (the bound check in
`Iter::next` never lets a padding position be yielded); and once `next`
has returned `None` its state is exhausted, so it returns `None` on every
subsequent call. -/
theorem C10_iter_bounds (n d : Nat) :
    (∀ x ∈ (Bitmap.from_value (n := n) d).into_iter.toList, x < n) ∧
    (∀ s t : Iter n, Iter.next s = (none, t) → Iter.next t = (none, t)) := by
  constructor
  · intro x hx
    rw [show (Bitmap.from_value (n := n) d).into_iter = (⟨0, d⟩ : Iter n) from rfl,
      Iter.toList_eq] at hx
    exact List.mem_range.mp (List.mem_filter.mp hx).1
  · intro s t h
    exact Iter.next_of_exhausted t (Iter.next_none s t h).1

theorem C10_witness : Iter.next (⟨10, 2 ^ 15⟩ : Iter 10) = (none, ⟨10, 2 ^ 15⟩) :=
  (C10_iter_bounds 10 (2 ^ 15)).2 ⟨3, 2 ^ 15⟩ ⟨10, 2 ^ 15⟩ (by decide)

/-- C6 counterexample: for declared size 10 the storage is 16 bits wide;
the bitmap built by `from_value` from the raw value `2 ^ 15` has every
semantic bit (positions 0-9) false, yet `len` returns 1 and `first_index`
returns `some 15`: `len` and `first_index` do not ignore storage bits at
positions at or above the declared size, contradicting the claim. -/
theorem C6_counterexample :
    10 < storeWidth 10 ∧
    (Bitmap.from_value (n := 10) (2 ^ 15)).into_value % 2 ^ 10 = 0 ∧
    (Bitmap.from_value (n := 10) (2 ^ 15)).len ≠ 0 ∧
    (Bitmap.from_value (n := 10) (2 ^ 15)).first_index = some 15 := by
  decide

/-- C6 amended: bits at positions at or above the declared size are never
set true by construction via `new` followed by in-range `set` calls, and
iteration ignores such positions for every bitmap (including any built by
`from_value`); but `len` and `first_index` operate on the full stored
value, so they do reflect padding bits smuggled in through `from_value`. -/
theorem C6_padding_discipline (n : Nat) (l : List Nat) (hl : ∀ i ∈ l, i < n) :
    (∀ j, n ≤ j → (buildBitmap n l).data.testBit j = false) ∧
    (∀ d x, x ∈ (Bitmap.from_value (n := n) d).into_iter.toList → x < n) ∧
    (∀ d, (Bitmap.from_value (n := n) d).len = Store.len (storeWidth n) d ∧
      (Bitmap.from_value (n := n) d).first_index = Store.firstIndex (storeWidth n) d) := by
  refine ⟨?_, ?_, ?_⟩
  · intro j hj
    rw [buildBitmap_testBit n l hl]
    simp only [decide_eq_false_iff_not]
    intro hmem
    exact absurd (hl j hmem) (by omega)
  · intro d x hx
    rw [show (Bitmap.from_value (n := n) d).into_iter = (⟨0, d⟩ : Iter n) from rfl,
      Iter.toList_eq] at hx
    exact List.mem_range.mp (List.mem_filter.mp hx).1
  · intro d
    exact ⟨rfl, rfl⟩

theorem C6_witness : (buildBitmap 10 [3, 5, 8]).data.testBit 12 = false :=
  (C6_padding_discipline 10 [3, 5, 8] (by decide)).1 12 (by omega)

end Bitmaps
